import Mathlib

/-!
Verification of the lantern-algeneva transport layer.

Bytes are modelled as natural numbers; byte strings as `List Nat`.
The wrapped network connections of `conn.go` are modelled as explicit
state-passing functions; the underlying socket is a list of chunks
(each `Read` on the socket delivers the next chunk, truncated to the
space available, with the remainder pushed back).  The external
collaborators (the algeneva transform engine, the AES block cipher)
are parameters of the definitions, constrained only by the interface
properties the specification states for them.
-/

/-- An occurrence of `t` inside `s` (bytes.Contains semantics). -/
def SubSeg (t s : List Nat) : Prop := ∃ u v, s = u ++ t ++ v

/-- The list `s` starts with the token `t`. -/
def tokHead (t s : List Nat) : Bool :=
  match t, s with
  | [], _ => true
  | _ :: _, [] => false
  | a :: ts, b :: ss => a == b && tokHead ts ss

/-- Executable search of `t` inside `s`, the model of `bytes.Contains s t`. -/
def tokIn (t s : List Nat) : Bool :=
  match s with
  | [] => t.isEmpty
  | _ :: s' => tokHead t s || tokIn t s'

/-- The last `n` elements of a list. -/
def lastSeg (n : Nat) (s : List Nat) : List Nat := s.drop (s.length - n)

/-- Outcome of a run of `readAtLeastUntil`: total byte count reported, the error,
the bytes that ended up in the destination, and the chunks of the source that were
not consumed. -/
structure RaluResult where
  written : Nat
  rerr : Option String
  out : List Nat
  remaining : List (List Nat)
  deriving Repr, DecidableEq

def eofNotFoundMsg : String := "token not found: EOF"

def shortWriteMsg : String := "failed to write all data to dst"

def sumLens (cs : List (List Nat)) : Nat := (cs.map List.length).sum

/-- The loop of `readAtLeastUntil` (conn.go). The source is a list of chunks: each
`src.Read` delivers the next chunk truncated to the space left in the 1024-byte
buffer, pushing the remainder back; an empty chunk is a read that returned no data
and no error; reading past the last chunk yields `io.EOF`. The destination is a
stateless writer `dstW` returning a byte count and an optional error. The window
argument is `buf[:wptr]`. `none` models executions that never return normally: the
slice fault `copy(buf[:len(token)], ...)` when the token exceeds the 1024-byte
buffer, and the livelock when no buffer space is left. -/
def raluLoop (dstW : List Nat → Nat × Option String) (token : List Nat) :
    Nat → List (List Nat) → List Nat → Nat → List Nat → Option RaluResult
  | 0, _, _, _, _ => none
  | _ + 1, [], _, written, out => some ⟨written, some eofNotFoundMsg, out, []⟩
  | fuel + 1, c :: rest, window, written, out =>
    if c.isEmpty then raluLoop dstW token fuel rest window written out
    else if 1024 - window.length = 0 then none
    else
      let space := 1024 - window.length
      let delivered := c.take space
      let rest' := if c.length ≤ space then rest else c.drop space :: rest
      let nw := (dstW delivered).1
      let ew := (dstW delivered).2
      let written' := written + nw
      let out' := out ++ delivered.take nw
      let window' := window ++ delivered.take nw
      if ew.isSome then some ⟨written', ew, out', rest'⟩
      else if nw ≠ delivered.length then some ⟨written', some shortWriteMsg, out', rest'⟩
      else if tokIn token window' then some ⟨written', none, out', rest'⟩
      else if 1024 < token.length then none
      else raluLoop dstW token fuel rest' (lastSeg token.length window') written' out'

/-- The function readAtLeastUntil of conn.go over a chunked source, with enough fuel for any
normally terminating execution. -/
def readAtLeastUntil (dstW : List Nat → Nat × Option String) (token : List Nat)
    (chunks : List (List Nat)) : Option RaluResult :=
  raluLoop dstW token (sumLens chunks + chunks.length + 1) chunks [] 0 []

/-- A destination that accepts every byte and never fails (a bytes.Buffer). -/
def perfectDst : List Nat → Nat × Option String := fun bs => (bs.length, none)

/-- The HTTP header terminator CR LF CR LF. -/
def crlfcrlf : List Nat := [13, 10, 13, 10]

/-- Initial segment: `p` begins `s`. -/
def PrefSeg (p s : List Nat) : Prop := ∃ v, s = p ++ v

/-- Final segment: `p` ends `s`. -/
def SufSeg (p s : List Nat) : Prop := ∃ u, s = u ++ p

/-- State of the server-side normalization connection (conn.go). -/
structure NormState where
  normalizedFirst : Bool
  buf : Option (List Nat)
  chunks : List (List Nat)
  deriving Repr, DecidableEq

/-- A read on the wrapped connection: delivers up to `cap` bytes of the next chunk,
pushing any remainder back; end of stream yields an EOF error. -/
def connRead (s : NormState) (cap : Nat) :
    Option (NormState × Nat × Option String × List Nat) :=
  match s.chunks with
  | [] => some (s, 0, some "EOF", [])
  | c :: cr =>
    some ({ s with chunks := if c.length ≤ cap then cr else c.drop cap :: cr },
      (c.take cap).length, none, c.take cap)

/-- The method normalizationConn.Read of conn.go. `N` is algeneva.NormalizeRequest, `cap` is
`len(b)`. The value is the new state, the reported byte count, the error, and the
bytes delivered to the caller; `none` propagates an abnormal run of the helper. -/
def normRead (N : List Nat → Except String (List Nat)) (s : NormState) (cap : Nat) :
    Option (NormState × Nat × Option String × List Nat) :=
  if s.normalizedFirst then
    match s.buf with
    | some B =>
      if 0 < B.length then
        some ({ s with buf := some (B.drop cap) }, (B.take cap).length, none, B.take cap)
      else connRead s cap
    | none => connRead s cap
  else
    match readAtLeastUntil perfectDst crlfcrlf s.chunks with
    | none => none
    | some r =>
      match r.rerr with
      | some e => some (⟨false, some (s.buf.getD [] ++ r.out), r.remaining⟩, 0, some e, [])
      | none =>
        match N ((s.buf.getD [] ++ r.out).take r.written) with
        | .error e => some (⟨false, some (s.buf.getD [] ++ r.out), r.remaining⟩, 0, some e, [])
        | .ok norm =>
          some (⟨true, some (norm.drop cap), r.remaining⟩, (norm.take cap).length, none,
            norm.take cap)

/-- Run a sequence of reads with the given buffer capacities, collecting the bytes
each read delivers. -/
def normReadAll (N : List Nat → Except String (List Nat)) :
    NormState → List Nat → Option (List (List Nat) × NormState)
  | s, [] => some ([], s)
  | s, cap :: caps =>
    match normRead N s cap with
    | none => none
    | some (s', _, _, bytes) =>
      match normReadAll N s' caps with
      | none => none
      | some (ps, s'') => some (bytes :: ps, s'')

/-- State of the client-side transform connection (conn.go httpTransformConn).
`eohCheckPtr` is a Go int and may go negative. -/
structure HTConn where
  transformedFirst : Bool
  buf : List Nat
  eohCheckPtr : Int
  deriving Repr, DecidableEq

def htInit : HTConn := ⟨false, [], 0⟩

/-- The method httpTransformConn.Write of conn.go. `applyS` is the strategy (`none` models a nil
httpTransform), `uw` the underlying Conn.Write. The value is the new state, the
reported count, the error, and the bytes handed to the underlying connection;
`none` models the Go run-time fault of `c.buf.Bytes()[c.eohCheckPtr:]` when the
index is outside the buffer. -/
def htWrite (applyS : Option (List Nat → Except String (List Nat)))
    (uw : List Nat → Nat × Option String) (s : HTConn) (b : List Nat) :
    Option (HTConn × Nat × Option String × List Nat) :=
  match applyS with
  | none => some (s, (uw b).1, (uw b).2, b.take (uw b).1)
  | some ap =>
    if s.transformedFirst || b.isEmpty then
      some (s, (uw b).1, (uw b).2, b.take (uw b).1)
    else
      let buf' := s.buf ++ b
      if s.eohCheckPtr < 0 ∨ (buf'.length : Int) < s.eohCheckPtr then none
      else if ¬ tokIn crlfcrlf (buf'.drop s.eohCheckPtr.toNat) then
        some ({ s with buf := buf', eohCheckPtr := s.eohCheckPtr + b.length - 3 },
          b.length, none, [])
      else
        match ap buf' with
        | .error e => some ({ s with buf := buf' }, b.length, some e, [])
        | .ok req =>
          if (uw req).2.isSome then
            some ({ s with buf := buf' }, b.length, (uw req).2, req.take (uw req).1)
          else
            some (⟨true, [], s.eohCheckPtr⟩, b.length, none, req.take (uw req).1)

/-- An underlying connection write that accepts everything. -/
def perfectUw : List Nat → Nat × Option String := fun bs => (bs.length, none)

/-- The cipher adapter of `encryptConn`: an abstract keyed block cipher `E`
(AES with the given key), two output-feedback keystreams both seeded with the
all-zero initialization vector, and the identity of the wrapped connection. -/
structure EncState where
  connId : Nat
  riv : List Nat
  wiv : List Nat
  readPos : Nat
  writePos : Nat
  deriving Repr, DecidableEq

/-- Key validity of aes.NewCipher: it succeeds exactly for 16, 24 and 32 byte keys. -/
def aesKeyLenValid (key : List Nat) : Bool :=
  key.length == 16 || key.length == 24 || key.length == 32

/-- The zero initialization vector `[aes.BlockSize]byte`. -/
def zeroIV : List Nat := List.replicate 16 0

/-- The constructor encryptConn: it fails with the encryption-key error on an invalid
key length, otherwise wraps the connection with two OFB keystreams over the
same block cipher, both seeded with the zero IV. -/
def encryptConn (connId : Nat) (key : List Nat) : Option EncState :=
  if aesKeyLenValid key then some ⟨connId, zeroIV, zeroIV, 0, 0⟩ else none

/-- The OFB keystream blocks: iterated encryptions of the IV. -/
def ofbBlocks (E : List Nat → List Nat) (iv : List Nat) : Nat → List (List Nat)
  | 0 => []
  | n + 1 => E iv :: ofbBlocks E (E iv) n

/-- The first `n` bytes of the OFB keystream seeded at `iv`. -/
def ofbKeystream (E : List Nat → List Nat) (iv : List Nat) (n : Nat) : List Nat :=
  ((ofbBlocks E iv n).flatten).take n

/-- XORKeyStream: byte-wise XOR of the data against the keystream. -/
def xorBytes (ks xs : List Nat) : List Nat := List.zipWith Nat.xor ks xs

/-- The keystream segment consumed by a transfer of `n` bytes starting at
stream position `off`. -/
def ksSeg (E : List Nat → List Nat) (iv : List Nat) (off n : Nat) : List Nat :=
  (ofbKeystream E iv (off + n)).drop off

/-- The method Write of the encrypter: encrypt through the write keystream and advance it. -/
def encWrite (E : List Nat → List Nat) (s : EncState) (p : List Nat) :
    EncState × List Nat :=
  ({ s with writePos := s.writePos + p.length }, xorBytes (ksSeg E s.wiv s.writePos p.length) p)

/-- The method Read of the encrypter: decrypt the bytes produced by the wrapped connection through
the read keystream and advance it. -/
def encRead (E : List Nat → List Nat) (s : EncState) (y : List Nat) :
    EncState × List Nat :=
  ({ s with readPos := s.readPos + y.length }, xorBytes (ksSeg E s.riv s.readPos y.length) y)

/-- One nanosecond count of time.Second. -/
def timeSecond : Nat := 1000000000

/-- The sizing and timeout configuration established by WrapListener:
`make(chan net.Conn, 100)`, `make(chan error, 20)`, and an http.Server with
ReadTimeout and WriteTimeout of `10 * time.Second`. -/
structure WrapConfig where
  connectionsCap : Nat
  wsConnErrCap : Nat
  srvReadTimeout : Nat
  srvWriteTimeout : Nat
  deriving Repr, DecidableEq

def wrapListenerConfig : WrapConfig :=
  ⟨100, 20, 10 * timeSecond, 10 * timeSecond⟩

/-- sendError (listener.go): a select with a default branch on the bounded error
channel; the send succeeds only while the buffer has room, otherwise the error is
dropped without blocking. -/
def sendError (e : String) (q : List String) (qcap : Nat) : List String :=
  if q.length < qcap then q ++ [e] else q

/-- Outcome of the websocket accept inside the handler. -/
inductive HsResult where
  | ok (c : Nat)
  | err (e : String)
  deriving Repr, DecidableEq

/-- What happens to the handler: either ll.connections receives the flow, or the
request context finishes first with the given error. -/
inductive Delivery where
  | delivered
  | ctxDone (e : String)
  deriving Repr, DecidableEq

/-- Effect of one handler invocation. -/
structure HandlerEffect where
  queued : Option Nat
  closedConn : Bool
  errQ : List String
  deriving Repr, DecidableEq

/-- The handler handleFunc: a failed websocket accept reports its error; a successful
accept waits on the select between delivery into ll.connections and the request
context; if the context finishes first the flow is closed and the context error is
reported through sendError. -/
def handleFunc (hs : HsResult) (d : Delivery) (errQ : List String) : HandlerEffect :=
  match hs with
  | .err e => ⟨none, false, sendError e errQ 20⟩
  | .ok c =>
    match d with
    | .delivered => ⟨some c, false, errQ⟩
    | .ctxDone e => ⟨none, true, sendError e errQ 20⟩

/-- Lifecycle state of the listener: whether the completion channel has been
closed, the recorded terminal server error, and the connections channel
(`none` models the nil channel). -/
structure LState where
  fired : Bool
  srvErr : Option String
  connections : Option (List Nat)
  deriving Repr, DecidableEq

def lInit : LState := ⟨false, none, some []⟩

/-- The tail of the server goroutine: record the Serve error, nil out the
connections channel and close the completion channel. Closing an already-closed
channel is a run-time panic, modelled as `none`; the goroutine runs this code
exactly once. -/
def serverExit (s : LState) (e : String) : Option LState :=
  if s.fired then none else some ⟨true, some e, none⟩

/-- The method Close of the listener: under the mutex, return nil when the completion channel is
already closed, otherwise close the embedded server and nil out the channel,
returning the server close error. -/
def lClose (srvCloseErr : Option String) (s : LState) : LState × Option String :=
  if s.fired then (s, none)
  else ({ s with connections := none }, srvCloseErr)

/-- The method Accept of the listener: the select between the connections channel and the completion
channel; a receive from a nil channel never fires. `none` is a blocked call. -/
def lAccept (s : LState) : LState × Option (Except String Nat) :=
  if s.fired then (s, some (Except.error (s.srvErr.getD "")))
  else
    match s.connections with
    | some (c :: cs) => ({ s with connections := some cs }, some (Except.ok c))
    | _ => (s, none)

inductive LEvent where
  | serverExit (e : String)
  | closeCall (srvCloseErr : Option String)
  | acceptCall
  | enqueue (c : Nat)
  deriving Repr, DecidableEq

def lStep (s : LState) (ev : LEvent) : Option LState :=
  match ev with
  | .serverExit e => serverExit s e
  | .closeCall r => some (lClose r s).1
  | .acceptCall => some (lAccept s).1
  | .enqueue c =>
    match s.connections with
    | some cs => some { s with connections := some (cs ++ [c]) }
    | none => some s

def lRun : LState → List LEvent → Option LState
  | s, [] => some s
  | s, ev :: evs =>
    match lStep s ev with
    | none => none
    | some s' => lRun s' evs

/-- Number of times the completion channel is closed along a trace. -/
def fires : LState → List LEvent → Nat
  | _, [] => 0
  | s, ev :: evs =>
    match lStep s ev with
    | none => 0
    | some s' => (if !s.fired && s'.fired then 1 else 0) + fires s' evs

theorem tokHead_iff (t s : List Nat) : tokHead t s = true ↔ ∃ v, s = t ++ v := by
  induction t generalizing s with
  | nil => simp [tokHead]
  | cons a ts ih =>
    cases s with
    | nil => simp [tokHead]
    | cons b ss =>
      simp only [tokHead, Bool.and_eq_true, beq_iff_eq, ih]
      constructor
      · rintro ⟨rfl, v, rfl⟩; exact ⟨v, rfl⟩
      · rintro ⟨v, hv⟩
        injection hv with h1 h2
        exact ⟨h1.symm, v, h2⟩

theorem tokIn_iff (t s : List Nat) : tokIn t s = true ↔ SubSeg t s := by
  induction s with
  | nil =>
    cases t with
    | nil => simp [tokIn, SubSeg]
    | cons a ts =>
      simp only [tokIn, List.isEmpty, SubSeg]
      constructor
      · intro h; cases h
      · rintro ⟨u, v, hv⟩
        exact absurd hv.symm (by simp)
  | cons b ss ih =>
    simp only [tokIn, Bool.or_eq_true, tokHead_iff, ih]
    constructor
    · rintro (⟨v, hv⟩ | ⟨u, v, hv⟩)
      · exact ⟨[], v, by simpa using hv⟩
      · exact ⟨b :: u, v, by simp [hv]⟩
    · rintro ⟨u, v, hv⟩
      cases u with
      | nil => exact Or.inl ⟨v, by simpa using hv⟩
      | cons x u' =>
        right
        injection hv with h1 h2
        exact ⟨u', v, h2⟩

theorem SubSeg.mono_right (t s v : List Nat) (h : SubSeg t s) : SubSeg t (s ++ v) := by
  obtain ⟨u, w, rfl⟩ := h
  exact ⟨u, w ++ v, by simp⟩

theorem SubSeg.mono_left (t s u : List Nat) (h : SubSeg t s) : SubSeg t (u ++ s) := by
  obtain ⟨a, b, rfl⟩ := h
  exact ⟨u ++ a, b, by simp⟩

theorem subSeg_of_drop (t s : List Nat) (k : Nat) (h : SubSeg t (s.drop k)) : SubSeg t s := by
  obtain ⟨u, v, hv⟩ := h
  refine ⟨s.take k ++ u, v, ?_⟩
  conv_lhs => rw [← List.take_append_drop k s, hv]
  simp

theorem lastSeg_length (n : Nat) (s : List Nat) : (lastSeg n s).length = min n s.length := by
  simp [lastSeg]; omega

theorem lastSeg_append_eq_drop (n : Nat) (a b : List Nat) :
    lastSeg n a ++ b = (a ++ b).drop (a.length - n) := by
  unfold lastSeg
  rw [List.drop_append_of_le_length (by omega)]

/-- Key completeness step: if the token occurs in `a ++ b` but not in `a`, then it
still occurs once `a` is trimmed to its last `t.length - 1` elements. -/
theorem subSeg_lastSeg (t a b : List Nat) (h : SubSeg t (a ++ b)) (hna : ¬ SubSeg t a) :
    SubSeg t (lastSeg (t.length - 1) a ++ b) := by
  obtain ⟨u, v, hv⟩ := h
  -- the occurrence must end strictly after `a`
  have hlen : a.length < u.length + t.length := by
    by_contra hle
    push_neg at hle
    apply hna
    have htake : (a ++ b).take (u.length + t.length) = u ++ t := by
      rw [hv]
      exact List.take_left' (by simp)
    have ha : a.take (u.length + t.length) = u ++ t := by
      rw [← htake, List.take_append_of_le_length hle]
    refine ⟨u, a.drop (u.length + t.length), ?_⟩
    calc a = a.take (u.length + t.length) ++ a.drop (u.length + t.length) :=
        (List.take_append_drop _ _).symm
      _ = u ++ t ++ a.drop (u.length + t.length) := by rw [ha]
  rw [lastSeg_append_eq_drop]
  have hk : a.length - (t.length - 1) ≤ u.length := by omega
  have hstep : (u ++ t ++ v).drop (a.length - (t.length - 1)) =
      (u ++ t).drop (a.length - (t.length - 1)) ++ v :=
    List.drop_append_of_le_length (by simp; omega)
  rw [hv, hstep, List.drop_append_of_le_length hk]
  exact ⟨u.drop (a.length - (t.length - 1)), v, rfl⟩

theorem lastSeg_idem (m n : Nat) (s : List Nat) (h : m ≤ n) :
    lastSeg m (lastSeg n s) = lastSeg m s := by
  unfold lastSeg
  rw [List.drop_drop]
  congr 1
  simp only [List.length_drop]
  omega

theorem subSeg_lift_lastSeg (t w x : List Nat) (m : Nat)
    (h : SubSeg t (lastSeg m w ++ x)) : SubSeg t (w ++ x) := by
  rw [lastSeg_append_eq_drop] at h
  exact subSeg_of_drop _ _ _ h

theorem subSeg_push_lastSeg (t w x : List Nat) (m n : Nat) (hmn : m ≤ n)
    (h : SubSeg t (lastSeg m w ++ x)) : SubSeg t (lastSeg n w ++ x) := by
  rw [← lastSeg_idem m n w hmn] at h
  exact subSeg_lift_lastSeg _ _ _ _ h

theorem flatten_step (c : List Nat) (rest : List (List Nat)) (space : Nat) :
    c.take space ++ (if c.length ≤ space then rest else c.drop space :: rest).flatten =
      (c :: rest).flatten := by
  by_cases hc : c.length ≤ space
  · simp [hc, List.take_of_length_le hc]
  · simp only [hc, if_false, List.flatten_cons, ← List.append_assoc, List.take_append_drop]

theorem sumLens_step_lt (c : List Nat) (rest : List (List Nat)) (space : Nat)
    (hsp : 0 < space) :
    sumLens (if c.length ≤ space then rest else c.drop space :: rest) +
      (if c.length ≤ space then rest else c.drop space :: rest).length <
      sumLens (c :: rest) + rest.length + 1 := by
  by_cases hc : c.length ≤ space <;> simp [hc, sumLens] <;> omega

theorem sumLens_step_eq (c : List Nat) (rest : List (List Nat)) (space : Nat) :
    (c.take space).length + sumLens (if c.length ≤ space then rest else c.drop space :: rest) =
      sumLens (c :: rest) := by
  by_cases hc : c.length ≤ space
  · rw [List.take_of_length_le hc]
    simp [hc, sumLens]
  · have hmin : (c.take space).length = space := by
      rw [List.length_take]
      exact Nat.min_eq_left (by omega)
    simp [hc, sumLens, hmin]
    omega

theorem raluLoop_nil (dstW : List Nat → Nat × Option String) (token : List Nat)
    (fuel : Nat) (window out : List Nat) (written : Nat) :
    raluLoop dstW token (fuel + 1) [] window written out =
      some ⟨written, some eofNotFoundMsg, out, []⟩ := rfl

theorem raluLoop_emptyChunk (dstW : List Nat → Nat × Option String) (token : List Nat)
    (fuel : Nat) (rest : List (List Nat)) (window out : List Nat) (written : Nat) :
    raluLoop dstW token (fuel + 1) ([] :: rest) window written out =
      raluLoop dstW token fuel rest window written out := rfl

theorem raluLoop_pd_step (token : List Nat) (fuel : Nat) (c : List Nat)
    (rest : List (List Nat)) (window out : List Nat) (written : Nat)
    (hce : c.isEmpty = false) (hsp : ¬ 1024 - window.length = 0)
    (hnotok : tokIn token (window ++ c.take (1024 - window.length)) = false)
    (htl : ¬ 1024 < token.length) :
    raluLoop perfectDst token (fuel + 1) (c :: rest) window written out =
      raluLoop perfectDst token fuel
        (if c.length ≤ 1024 - window.length then rest else c.drop (1024 - window.length) :: rest)
        (lastSeg token.length (window ++ c.take (1024 - window.length)))
        (written + (c.take (1024 - window.length)).length)
        (out ++ c.take (1024 - window.length)) := by
  simp only [raluLoop, perfectDst, List.take_length, hce, Bool.false_eq_true, if_false,
    hsp, ne_eq, not_true_eq_false, Option.isSome_none, hnotok, htl]

theorem raluLoop_pd_found (token : List Nat) (fuel : Nat) (c : List Nat)
    (rest : List (List Nat)) (window out : List Nat) (written : Nat)
    (hce : c.isEmpty = false) (hsp : ¬ 1024 - window.length = 0)
    (htok : tokIn token (window ++ c.take (1024 - window.length)) = true) :
    raluLoop perfectDst token (fuel + 1) (c :: rest) window written out =
      some ⟨written + (c.take (1024 - window.length)).length, none,
        out ++ c.take (1024 - window.length),
        if c.length ≤ 1024 - window.length then rest
          else c.drop (1024 - window.length) :: rest⟩ := by
  simp only [raluLoop, perfectDst, List.take_length, hce, Bool.false_eq_true, if_false,
    hsp, ne_eq, not_true_eq_false, Option.isSome_none, htok]
  simp

theorem raluLoop_eof (token : List Nat) (ht : token.length ≤ 1023) :
    ∀ fuel chunks window written out,
      sumLens chunks + chunks.length < fuel →
      window.length ≤ 1023 →
      ¬ SubSeg token (window ++ chunks.flatten) →
      raluLoop perfectDst token fuel chunks window written out =
        some ⟨written + sumLens chunks, some eofNotFoundMsg, out ++ chunks.flatten, []⟩ := by
  intro fuel
  induction fuel with
  | zero => intro chunks window written out hfuel _ _; omega
  | succ fuel ih =>
    intro chunks window written out hfuel hw hns
    match chunks with
    | [] => simp [raluLoop_nil, sumLens]
    | c :: rest =>
      by_cases hce : c.isEmpty
      · have hc : c = [] := List.isEmpty_iff.mp hce
        subst hc
        rw [raluLoop_emptyChunk,
          ih rest window written out (by simp [sumLens] at hfuel ⊢; omega) hw
            (by simpa using hns)]
        simp [sumLens]
      · have hcne : c ≠ [] := fun h => hce (by simp [h])
        have hclen : 0 < c.length := List.length_pos.mpr hcne
        have hdlen : (c.take (1024 - window.length)).length = min (1024 - window.length) c.length :=
          List.length_take _ _
        have hspace : ¬ (1024 - window.length = 0) := by omega
        have hsub : ¬ SubSeg token (window ++ c.take (1024 - window.length) ++
            (if c.length ≤ 1024 - window.length then rest
              else c.drop (1024 - window.length) :: rest).flatten) := by
          intro h
          apply hns
          rw [List.append_assoc, flatten_step] at h
          exact h
        have htokf : tokIn token (window ++ c.take (1024 - window.length)) = false := by
          rw [Bool.eq_false_iff]
          intro h
          exact hsub ((SubSeg.mono_right _ _ _) ((tokIn_iff _ _).mp h))
        rw [raluLoop_pd_step token fuel c rest window out written
          (Bool.eq_false_iff.mpr hce) hspace htokf (by omega)]
        have hlt := sumLens_step_lt c rest (1024 - window.length) (by omega)
        have hseq := sumLens_step_eq c rest (1024 - window.length)
        have hlc : (c :: rest).length = rest.length + 1 := rfl
        rw [ih _ _ _ _ (by omega) (by rw [lastSeg_length]; omega)
          (fun h => hsub (subSeg_lift_lastSeg _ _ _ _ h))]
        have hwr : written + (c.take (1024 - window.length)).length +
            sumLens (if c.length ≤ 1024 - window.length then rest
              else c.drop (1024 - window.length) :: rest) =
            written + sumLens (c :: rest) := by omega
        have hout : out ++ c.take (1024 - window.length) ++
            (if c.length ≤ 1024 - window.length then rest
              else c.drop (1024 - window.length) :: rest).flatten =
            out ++ (c :: rest).flatten := by
          rw [List.append_assoc, flatten_step]
        rw [hwr, hout]

theorem raluLoop_found (token : List Nat) (ht0 : 0 < token.length) (ht : token.length ≤ 1023) :
    ∀ fuel chunks window written out,
      sumLens chunks + chunks.length < fuel →
      window.length ≤ 1023 →
      SubSeg token (window ++ chunks.flatten) →
      ¬ SubSeg token window →
      ∃ consumed rest',
        raluLoop perfectDst token fuel chunks window written out =
          some ⟨written + consumed.length, none, out ++ consumed, rest'⟩ ∧
        consumed ++ rest'.flatten = chunks.flatten ∧
        SubSeg token (window ++ consumed) ∧
        ∃ pre piece, consumed = pre ++ piece ∧ piece ≠ [] ∧ ¬ SubSeg token (window ++ pre) := by
  intro fuel
  induction fuel with
  | zero => intro chunks window written out hfuel _ _ _; omega
  | succ fuel ih =>
    intro chunks window written out hfuel hw hs hnw
    match chunks with
    | [] => exact absurd (by simpa using hs) hnw
    | c :: rest =>
      by_cases hce : c.isEmpty
      · have hc : c = [] := List.isEmpty_iff.mp hce
        subst hc
        obtain ⟨consumed, rest', heq, hflat, hfound, hmin⟩ :=
          ih rest window written out (by simp [sumLens] at hfuel ⊢; omega) hw
            (by simpa using hs) hnw
        exact ⟨consumed, rest', by rw [raluLoop_emptyChunk]; exact heq,
          by simpa using hflat, hfound, hmin⟩
      · have hcne : c ≠ [] := fun h => hce (by simp [h])
        have hclen : 0 < c.length := List.length_pos.mpr hcne
        have hspace : ¬ (1024 - window.length = 0) := by omega
        have hdlen : (c.take (1024 - window.length)).length =
            min (1024 - window.length) c.length := List.length_take _ _
        have hdne : c.take (1024 - window.length) ≠ [] := by
          intro h
          rw [h] at hdlen
          simp at hdlen
          omega
        by_cases htok : tokIn token (window ++ c.take (1024 - window.length)) = true
        · refine ⟨c.take (1024 - window.length),
            (if c.length ≤ 1024 - window.length then rest
              else c.drop (1024 - window.length) :: rest), ?_, ?_, ?_, ?_⟩
          · rw [raluLoop_pd_found token fuel c rest window out written
              (Bool.eq_false_iff.mpr hce) hspace htok]
          · exact flatten_step c rest _
          · exact (tokIn_iff _ _).mp htok
          · exact ⟨[], c.take (1024 - window.length), by simp, hdne, by simpa using hnw⟩
        · have htokf : tokIn token (window ++ c.take (1024 - window.length)) = false :=
            Bool.eq_false_iff.mpr htok
          have hnw' : ¬ SubSeg token (window ++ c.take (1024 - window.length)) := by
            intro h
            exact htok ((tokIn_iff _ _).mpr h)
          have hs' : SubSeg token ((window ++ c.take (1024 - window.length)) ++
              (if c.length ≤ 1024 - window.length then rest
                else c.drop (1024 - window.length) :: rest).flatten) := by
            rw [List.append_assoc, flatten_step]
            exact hs
          have hsW : SubSeg token
              (lastSeg token.length (window ++ c.take (1024 - window.length)) ++
                (if c.length ≤ 1024 - window.length then rest
                  else c.drop (1024 - window.length) :: rest).flatten) :=
            subSeg_push_lastSeg _ _ _ _ _ (by omega) (subSeg_lastSeg _ _ _ hs' hnw')
          have hnwW : ¬ SubSeg token
              (lastSeg token.length (window ++ c.take (1024 - window.length))) := by
            intro h
            exact hnw' (subSeg_of_drop _ _ _ h)
          have hlt := sumLens_step_lt c rest (1024 - window.length) (by omega)
          have hlc : (c :: rest).length = rest.length + 1 := rfl
          obtain ⟨consumed₀, rest₀, heq, hflat₀, hfound₀, pre₀, piece₀, hpp, hpne, hnpre⟩ :=
            ih _ _ (written + (c.take (1024 - window.length)).length)
              (out ++ c.take (1024 - window.length))
              (by omega) (by rw [lastSeg_length]; omega) hsW hnwW
          refine ⟨c.take (1024 - window.length) ++ consumed₀, rest₀, ?_, ?_, ?_, ?_⟩
          · rw [raluLoop_pd_step token fuel c rest window out written
              (Bool.eq_false_iff.mpr hce) hspace htokf (by omega), heq]
            simp [List.length_append, Nat.add_assoc]
          · rw [List.append_assoc, hflat₀, flatten_step]
          · rw [← List.append_assoc]
            exact subSeg_lift_lastSeg _ _ _ _ hfound₀
          · refine ⟨c.take (1024 - window.length) ++ pre₀, piece₀,
              by rw [hpp, List.append_assoc], hpne, ?_⟩
            intro h
            rw [← List.append_assoc] at h
            exact hnpre (subSeg_push_lastSeg _ _ _ _ _ (by omega)
              (subSeg_lastSeg _ _ _ h hnw'))

theorem subSeg_nil_left (t : List Nat) (ht0 : 0 < t.length) : ¬ SubSeg t [] := by
  rintro ⟨u, v, hv⟩
  have := congrArg List.length hv
  simp at this
  omega

theorem readAtLeastUntil_found (token : List Nat) (chunks : List (List Nat))
    (ht0 : 0 < token.length) (ht : token.length ≤ 1023)
    (hs : SubSeg token chunks.flatten) :
    ∃ consumed rest',
      readAtLeastUntil perfectDst token chunks =
        some ⟨consumed.length, none, consumed, rest'⟩ ∧
      consumed ++ rest'.flatten = chunks.flatten ∧
      SubSeg token consumed ∧
      ∃ pre piece, consumed = pre ++ piece ∧ piece ≠ [] ∧ ¬ SubSeg token pre := by
  obtain ⟨consumed, rest', heq, hflat, hfound, pre, piece, hpp, hpne, hnpre⟩ :=
    raluLoop_found token ht0 ht (sumLens chunks + chunks.length + 1) chunks [] 0 []
      (by omega) (by simp) (by simpa using hs) (subSeg_nil_left token ht0)
  exact ⟨consumed, rest', by simpa using heq, hflat, by simpa using hfound,
    pre, piece, hpp, hpne, by simpa using hnpre⟩

theorem readAtLeastUntil_eof (token : List Nat) (chunks : List (List Nat))
    (ht : token.length ≤ 1023) (hs : ¬ SubSeg token chunks.flatten) :
    readAtLeastUntil perfectDst token chunks =
      some ⟨sumLens chunks, some eofNotFoundMsg, chunks.flatten, []⟩ := by
  have := raluLoop_eof token ht (sumLens chunks + chunks.length + 1) chunks [] 0 []
    (by omega) (by simp) (by simpa using hs)
  simpa using this

theorem raluLoop_shortWrite (dstW : List Nat → Nat × Option String) (token : List Nat)
    (fuel : Nat) (c : List Nat) (rest : List (List Nat)) (window out : List Nat)
    (written : Nat) (hce : c.isEmpty = false) (hsp : ¬ 1024 - window.length = 0)
    (hnw2 : (dstW (c.take (1024 - window.length))).2 = none)
    (hnw1 : (dstW (c.take (1024 - window.length))).1 ≠ (c.take (1024 - window.length)).length) :
    raluLoop dstW token (fuel + 1) (c :: rest) window written out =
      some ⟨written + (dstW (c.take (1024 - window.length))).1, some shortWriteMsg,
        out ++ (c.take (1024 - window.length)).take (dstW (c.take (1024 - window.length))).1,
        if c.length ≤ 1024 - window.length then rest
          else c.drop (1024 - window.length) :: rest⟩ := by
  simp only [raluLoop, hce, Bool.false_eq_true, if_false, hsp, hnw2, Option.isSome_none,
    ne_eq, hnw1, not_false_eq_true, if_true]

/-- A short write at the destination with no accompanying error is reported as the
dedicated short-write error. -/
theorem readAtLeastUntil_shortWrite (dstW : List Nat → Nat × Option String)
    (token c : List Nat) (rest : List (List Nat)) (hce : c.isEmpty = false)
    (hlen : c.length ≤ 1024) (hnw2 : (dstW c).2 = none) (hnw1 : (dstW c).1 ≠ c.length) :
    readAtLeastUntil dstW token (c :: rest) =
      some ⟨(dstW c).1, some shortWriteMsg, c.take (dstW c).1, rest⟩ := by
  have hc : c.take (1024 - ([] : List Nat).length) = c := by
    simpa using List.take_of_length_le (by simpa using hlen)
  unfold readAtLeastUntil
  rw [raluLoop_shortWrite dstW token _ c rest [] [] 0 hce (by simp) (by rw [hc]; exact hnw2)
    (by rw [hc]; exact hnw1)]
  rw [hc]
  simp [hlen]

theorem prefSeg_extend (d r f : List Nat) (h : PrefSeg r f) : PrefSeg (d ++ r) (d ++ f) := by
  obtain ⟨v, rfl⟩ := h
  exact ⟨v, by simp⟩

theorem prefSeg_take (s : List Nat) (k : Nat) : PrefSeg (s.take k) s :=
  ⟨s.drop k, (List.take_append_drop k s).symm⟩

/-- The first occurrence of a non-empty token: any string containing the token splits
as `W ++ E` where `W` ends with the token and contains no occurrence before that. -/
theorem firstOccSplit (t s : List Nat) (ht0 : 0 < t.length) (hs : SubSeg t s) :
    ∃ W E, s = W ++ E ∧ SufSeg t W ∧ ¬ SubSeg t (W.take (W.length - 1)) := by
  have hex : ∃ n, tokIn t (s.take n) = true :=
    ⟨s.length, by rw [List.take_length]; exact (tokIn_iff _ _).mpr hs⟩
  classical
  set n := Nat.find hex
  have hn : tokIn t (s.take n) = true := Nat.find_spec hex
  have hmin : ∀ m, m < n → tokIn t (s.take m) = false := by
    intro m hm
    exact Bool.eq_false_iff.mpr (Nat.find_min hex hm)
  have hnle : n ≤ s.length := by
    by_contra hgt
    push_neg at hgt
    have := hmin s.length hgt
    rw [List.take_length] at this
    rw [(tokIn_iff _ _).mpr hs] at this
    cases this
  refine ⟨s.take n, s.drop n, (List.take_append_drop n s).symm, ?_, ?_⟩
  · obtain ⟨u, v, hv⟩ := (tokIn_iff _ _).mp hn
    rcases v.eq_nil_or_concat with rfl | ⟨v', a, rfl⟩
    · exact ⟨u, by simpa using hv⟩
    · exfalso
      have hlen : (s.take n).length = n := by
        rw [List.length_take]
        omega
      have hulen : u.length + t.length + (v'.length + 1) = n := by
        have := congrArg List.length hv
        simp at this
        omega
      have hm : tokIn t (s.take (u.length + t.length)) = true := by
        have hstep : s.take (u.length + t.length) = u ++ t := by
          have h1 : (s.take n).take (u.length + t.length) = u ++ t := by
            rw [hv]
            exact List.take_left' (by simp)
          rwa [List.take_take, Nat.min_eq_left (by omega)] at h1
        rw [hstep]
        exact (tokIn_iff _ _).mpr ⟨u, [], by simp⟩
      have := hmin (u.length + t.length) (by omega)
      rw [hm] at this
      cases this
  · intro hsub
    have hlen : (s.take n).length = n := by
      rw [List.length_take]
      omega
    rw [hlen, List.take_take] at hsub
    rcases Nat.eq_zero_or_pos n with hz | hpos
    · rw [hz] at hsub
      simp at hsub
      exact subSeg_nil_left t ht0 hsub
    · rw [Nat.min_eq_left (by omega)] at hsub
      have := hmin (n - 1) (by omega)
      rw [(tokIn_iff _ _).mpr hsub] at this
      cases this

theorem normReadAll_drain (N : List Nat → Except String (List Nat)) :
    ∀ caps B cs,
      ∃ ps s'',
        normReadAll N ⟨true, some B, cs⟩ caps = some (ps, s'') ∧
        PrefSeg ps.flatten (B ++ cs.flatten) ∧
        List.Forall₂ (fun p c => p.length ≤ c) ps caps := by
  intro caps
  induction caps with
  | nil =>
    intro B cs
    exact ⟨[], _, rfl, ⟨B ++ cs.flatten, by simp⟩, List.Forall₂.nil⟩
  | cons cap caps ih =>
    intro B cs
    by_cases hB : 0 < B.length
    · obtain ⟨ps, s'', heq, hpre, hlen⟩ := ih (B.drop cap) cs
      refine ⟨B.take cap :: ps, s'', ?_, ?_, ?_⟩
      · simp only [normReadAll, normRead, if_true, hB]
        rw [heq]
      · obtain ⟨v, hv⟩ := hpre
        refine ⟨v, ?_⟩
        calc B ++ cs.flatten = B.take cap ++ (B.drop cap ++ cs.flatten) := by
              rw [← List.append_assoc, List.take_append_drop]
          _ = B.take cap ++ (ps.flatten ++ v) := by rw [hv]
          _ = (B.take cap :: ps).flatten ++ v := by simp
      · exact List.Forall₂.cons (by rw [List.length_take]; omega) hlen
    · have hBnil : B = [] := List.eq_nil_of_length_eq_zero (by omega)
      subst hBnil
      match cs with
      | [] =>
        obtain ⟨ps, s'', heq, hpre, hlen⟩ := ih [] []
        refine ⟨[] :: ps, s'', ?_, by simpa using hpre, List.Forall₂.cons (by simp) hlen⟩
        have h1 : normRead N ⟨true, some [], []⟩ cap =
            some (⟨true, some [], []⟩, 0, some "EOF", []) := rfl
        simp only [normReadAll, h1]
        rw [heq]
      | c :: cr =>
        obtain ⟨ps, s'', heq, hpre, hlen⟩ :=
          ih [] (if c.length ≤ cap then cr else c.drop cap :: cr)
        refine ⟨c.take cap :: ps, s'', ?_, ?_, ?_⟩
        · have h1 : normRead N ⟨true, some [], c :: cr⟩ cap =
              some (⟨true, some [], if c.length ≤ cap then cr else c.drop cap :: cr⟩,
                (c.take cap).length, none, c.take cap) := rfl
          simp only [normReadAll, h1]
          rw [heq]
        · obtain ⟨v, hv⟩ := hpre
          refine ⟨v, ?_⟩
          calc ([] : List Nat) ++ (c :: cr).flatten =
                c.take cap ++ ([] ++ (if c.length ≤ cap then cr
                  else c.drop cap :: cr).flatten) := by
                simp only [List.nil_append]
                rw [flatten_step]
            _ = c.take cap ++ (ps.flatten ++ v) := by rw [hv]
            _ = (c.take cap :: ps).flatten ++ v := by simp
        · exact List.Forall₂.cons (by rw [List.length_take]; omega) hlen

theorem normRead_first (N : List Nat → Except String (List Nat)) (cs : List (List Nat))
    (cap : Nat) (ht : SubSeg crlfcrlf cs.flatten)
    (hNok : ∀ w, SufSeg crlfcrlf w → ∃ r, N w = Except.ok r)
    (hHN : ∀ w e r, SufSeg crlfcrlf w → N w = Except.ok r →
      N (w ++ e) = Except.ok (r ++ e)) :
    ∃ W E NW rest',
      cs.flatten = (W ++ E) ++ rest'.flatten ∧
      SufSeg crlfcrlf W ∧
      ¬ SubSeg crlfcrlf (W.take (W.length - 1)) ∧
      N W = Except.ok NW ∧
      normRead N ⟨false, none, cs⟩ cap =
        some (⟨true, some ((NW ++ E).drop cap), rest'⟩, ((NW ++ E).take cap).length, none,
          (NW ++ E).take cap) := by
  obtain ⟨consumed, rest', heq, hflat, hfound, -⟩ :=
    readAtLeastUntil_found crlfcrlf cs (by decide) (by decide) ht
  obtain ⟨W, E, hWE, hsuf, hfirst⟩ := firstOccSplit crlfcrlf consumed (by decide) hfound
  obtain ⟨NW, hNW⟩ := hNok W hsuf
  have hNfull : N consumed = Except.ok (NW ++ E) := by
    rw [hWE]
    exact hHN W E NW hsuf hNW
  refine ⟨W, E, NW, rest', by rw [← hWE, hflat], hsuf, hfirst, hNW, ?_⟩
  simp only [normRead, Bool.false_eq_true, if_false]
  rw [heq]
  simp only [Option.getD, List.nil_append, List.take_length, hNfull]

theorem ofbBlocks_flatten_length (E : List Nat → List Nat) (hE : ∀ b, (E b).length = 16) :
    ∀ n iv, ((ofbBlocks E iv n).flatten).length = 16 * n := by
  intro n
  induction n with
  | zero => intro iv; simp [ofbBlocks]
  | succ n ih =>
    intro iv
    simp only [ofbBlocks, List.flatten_cons, List.length_append, hE, ih]
    ring

theorem ofbKeystream_length (E : List Nat → List Nat) (iv : List Nat) (n : Nat)
    (hE : ∀ b, (E b).length = 16) : (ofbKeystream E iv n).length = n := by
  rw [ofbKeystream, List.length_take, ofbBlocks_flatten_length E hE]
  omega

theorem xorBytes_length (ks xs : List Nat) :
    (xorBytes ks xs).length = min ks.length xs.length := by
  simp [xorBytes]

theorem xorBytes_cancel (ks xs : List Nat) (h : xs.length ≤ ks.length) :
    xorBytes ks (xorBytes ks xs) = xs := by
  induction ks generalizing xs with
  | nil =>
    cases xs with
    | nil => rfl
    | cons x xs => simp at h
  | cons k ks ih =>
    cases xs with
    | nil => rfl
    | cons x xs =>
      simp only [xorBytes, List.zipWith_cons_cons]
      have hc : Nat.xor k (Nat.xor k x) = x := Nat.xor_cancel_left k x
      rw [hc]
      rw [show List.zipWith Nat.xor ks (List.zipWith Nat.xor ks xs) = xorBytes ks (xorBytes ks xs)
        from rfl]
      rw [ih xs (by simp at h; omega)]

theorem lStep_fired_mono (s s' : LState) (ev : LEvent) (h : lStep s ev = some s')
    (hf : s.fired = true) : s'.fired = true := by
  cases ev with
  | serverExit e =>
    simp only [lStep, serverExit, hf, if_true] at h
    cases h
  | closeCall r =>
    simp only [lStep, lClose, hf, if_true] at h
    cases h
    exact hf
  | acceptCall =>
    simp only [lStep, lAccept, hf, if_true] at h
    cases h
    exact hf
  | enqueue c =>
    simp only [lStep] at h
    match hc : s.connections with
    | some cs => rw [hc] at h; cases h; exact hf
    | none => rw [hc] at h; cases h; exact hf

theorem lRun_cons_none (s : LState) (ev : LEvent) (evs : List LEvent)
    (h : lStep s ev = none) : lRun s (ev :: evs) = none := by
  simp only [lRun, h]

theorem lRun_cons_some (s s' : LState) (ev : LEvent) (evs : List LEvent)
    (h : lStep s ev = some s') : lRun s (ev :: evs) = lRun s' evs := by
  simp only [lRun, h]

theorem fires_cons_none (s : LState) (ev : LEvent) (evs : List LEvent)
    (h : lStep s ev = none) : fires s (ev :: evs) = 0 := by
  simp only [fires, h]

theorem fires_cons_some (s s' : LState) (ev : LEvent) (evs : List LEvent)
    (h : lStep s ev = some s') :
    fires s (ev :: evs) = (if !s.fired && s'.fired then 1 else 0) + fires s' evs := by
  simp only [fires, h]

theorem fires_of_fired (s : LState) (evs : List LEvent) (hf : s.fired = true) :
    fires s evs = 0 := by
  induction evs generalizing s with
  | nil => rfl
  | cons ev evs ih =>
    rcases hstep : lStep s ev with _ | s'
    · exact fires_cons_none s ev evs hstep
    · rw [fires_cons_some s s' ev evs hstep,
        ih s' (lStep_fired_mono s s' ev hstep hf)]
      simp [hf]

theorem fires_le_one (evs : List LEvent) : ∀ s, fires s evs ≤ 1 := by
  induction evs with
  | nil => intro s; simp [fires]
  | cons ev evs ih =>
    intro s
    rcases hstep : lStep s ev with _ | s'
    · rw [fires_cons_none s ev evs hstep]
      omega
    · rw [fires_cons_some s s' ev evs hstep]
      by_cases hf : s'.fired = true
      · rw [fires_of_fired s' evs hf]
        split <;> omega
      · have hsf : s'.fired = false := Bool.eq_false_iff.mpr hf
        have hand : (!s.fired && s'.fired) = false := by simp [hsf]
        rw [hand]
        have := ih s'
        simp only [Bool.false_eq_true, if_false]
        omega

/-- Invariant: once the completion channel has fired, the connections channel is
nil on every reachable state. -/
theorem lRun_fired_connections (evs : List LEvent) :
    ∀ s s', lRun s evs = some s' →
      (s.fired = true → s.connections = none) →
      s'.fired = true → s'.connections = none := by
  induction evs with
  | nil =>
    intro s s' h hinv
    cases h
    exact hinv
  | cons ev evs ih =>
    intro s s' h hinv
    rcases hstep : lStep s ev with _ | s₁
    · rw [lRun_cons_none s ev evs hstep] at h
      cases h
    · rw [lRun_cons_some s s₁ ev evs hstep] at h
      refine ih s₁ s' h ?_
      intro hf1
      cases ev with
      | serverExit e =>
        simp only [lStep, serverExit] at hstep
        by_cases hf : s.fired = true
        · rw [if_pos hf] at hstep; cases hstep
        · rw [if_neg hf] at hstep
          cases hstep
          rfl
      | closeCall r =>
        simp only [lStep, lClose] at hstep
        by_cases hf : s.fired = true
        · rw [if_pos hf] at hstep
          cases hstep
          exact hinv hf1
        · rw [if_neg hf] at hstep
          cases hstep
          rfl
      | acceptCall =>
        simp only [lStep, lAccept] at hstep
        by_cases hf : s.fired = true
        · rw [if_pos hf] at hstep
          cases hstep
          exact hinv hf1
        · rw [if_neg hf] at hstep
          match hc : s.connections with
          | some (c :: cs) =>
            rw [hc] at hstep
            cases hstep
            simp at hf1
            exact absurd hf1 hf
          | some [] =>
            rw [hc] at hstep
            cases hstep
            exact absurd hf1 hf
          | none =>
            rw [hc] at hstep
            cases hstep
            exact absurd hf1 hf
      | enqueue c =>
        simp only [lStep] at hstep
        match hc : s.connections with
        | some cs =>
          rw [hc] at hstep
          cases hstep
          simp at hf1
          have := hinv hf1
          rw [hc] at this
          cases this
        | none =>
          rw [hc] at hstep
          cases hstep
          exact hinv hf1

theorem normRead_raluError (N : List Nat → Except String (List Nat)) (s : NormState)
    (cap : Nat) (r : RaluResult) (e : String)
    (hnf : s.normalizedFirst = false)
    (hr : readAtLeastUntil perfectDst crlfcrlf s.chunks = some r)
    (he : r.rerr = some e) :
    normRead N s cap =
      some (⟨false, some (s.buf.getD [] ++ r.out), r.remaining⟩, 0, some e, []) := by
  simp only [normRead, hnf, Bool.false_eq_true, if_false]
  rw [hr]
  simp only [he]

theorem normRead_normError (N : List Nat → Except String (List Nat)) (s : NormState)
    (cap : Nat) (r : RaluResult) (e : String)
    (hnf : s.normalizedFirst = false)
    (hr : readAtLeastUntil perfectDst crlfcrlf s.chunks = some r)
    (he : r.rerr = none)
    (hN : N ((s.buf.getD [] ++ r.out).take r.written) = Except.error e) :
    normRead N s cap =
      some (⟨false, some (s.buf.getD [] ++ r.out), r.remaining⟩, 0, some e, []) := by
  simp only [normRead, hnf, Bool.false_eq_true, if_false]
  rw [hr]
  simp only [he, hN]

theorem normRead_retry (N : List Nat → Except String (List Nat)) (B : List Nat)
    (cs : List (List Nat)) (cap : Nat) (r : RaluResult) (norm : List Nat)
    (hr : readAtLeastUntil perfectDst crlfcrlf cs = some r)
    (he : r.rerr = none)
    (hN : N ((B ++ r.out).take r.written) = Except.ok norm) :
    normRead N ⟨false, some B, cs⟩ cap =
      some (⟨true, some (norm.drop cap), r.remaining⟩, (norm.take cap).length, none,
        norm.take cap) := by
  simp only [normRead, Bool.false_eq_true, if_false]
  rw [hr]
  simp only [he, Option.getD_some, hN]

theorem htWrite_noStrategy (uw : List Nat → Nat × Option String) (s : HTConn)
    (b : List Nat) :
    htWrite none uw s b = some (s, (uw b).1, (uw b).2, b.take (uw b).1) := rfl

theorem htWrite_pass (ap : List Nat → Except String (List Nat))
    (uw : List Nat → Nat × Option String) (s : HTConn) (b : List Nat)
    (h : (s.transformedFirst || b.isEmpty) = true) :
    htWrite (some ap) uw s b = some (s, (uw b).1, (uw b).2, b.take (uw b).1) := by
  simp only [htWrite, h, if_true]

theorem htWrite_panic (ap : List Nat → Except String (List Nat))
    (uw : List Nat → Nat × Option String) (s : HTConn) (b : List Nat)
    (h : (s.transformedFirst || b.isEmpty) = false)
    (hptr : s.eohCheckPtr < 0 ∨ ((s.buf ++ b).length : Int) < s.eohCheckPtr) :
    htWrite (some ap) uw s b = none := by
  simp only [htWrite, h, Bool.false_eq_true, if_false]
  rw [if_pos hptr]

theorem htWrite_buffering (ap : List Nat → Except String (List Nat))
    (uw : List Nat → Nat × Option String) (s : HTConn) (b : List Nat)
    (h : (s.transformedFirst || b.isEmpty) = false)
    (hptr : ¬ (s.eohCheckPtr < 0 ∨ ((s.buf ++ b).length : Int) < s.eohCheckPtr))
    (htok : tokIn crlfcrlf ((s.buf ++ b).drop s.eohCheckPtr.toNat) = false) :
    htWrite (some ap) uw s b =
      some ({ s with buf := s.buf ++ b, eohCheckPtr := s.eohCheckPtr + b.length - 3 },
        b.length, none, []) := by
  simp only [htWrite, h, Bool.false_eq_true, if_false]
  rw [if_neg hptr]
  simp only [htok, Bool.false_eq_true, not_false_eq_true, if_true]

theorem htWrite_applyError (ap : List Nat → Except String (List Nat))
    (uw : List Nat → Nat × Option String) (s : HTConn) (b : List Nat) (e : String)
    (h : (s.transformedFirst || b.isEmpty) = false)
    (hptr : ¬ (s.eohCheckPtr < 0 ∨ ((s.buf ++ b).length : Int) < s.eohCheckPtr))
    (htok : tokIn crlfcrlf ((s.buf ++ b).drop s.eohCheckPtr.toNat) = true)
    (happ : ap (s.buf ++ b) = Except.error e) :
    htWrite (some ap) uw s b = some ({ s with buf := s.buf ++ b }, b.length, some e, []) := by
  simp only [htWrite, h, Bool.false_eq_true, if_false]
  rw [if_neg hptr]
  simp only [htok, not_true_eq_false, if_false, happ]

theorem htWrite_applyOk (ap : List Nat → Except String (List Nat))
    (uw : List Nat → Nat × Option String) (s : HTConn) (b req : List Nat)
    (h : (s.transformedFirst || b.isEmpty) = false)
    (hptr : ¬ (s.eohCheckPtr < 0 ∨ ((s.buf ++ b).length : Int) < s.eohCheckPtr))
    (htok : tokIn crlfcrlf ((s.buf ++ b).drop s.eohCheckPtr.toNat) = true)
    (happ : ap (s.buf ++ b) = Except.ok req)
    (huw : (uw req).2 = none) :
    htWrite (some ap) uw s b =
      some (⟨true, [], s.eohCheckPtr⟩, b.length, none, req.take (uw req).1) := by
  simp only [htWrite, h, Bool.false_eq_true, if_false]
  rw [if_neg hptr]
  simp only [htok, not_true_eq_false, if_false, happ, huw, Option.isSome_none,
    Bool.false_eq_true]

theorem htWrite_uwError (ap : List Nat → Except String (List Nat))
    (uw : List Nat → Nat × Option String) (s : HTConn) (b req : List Nat)
    (h : (s.transformedFirst || b.isEmpty) = false)
    (hptr : ¬ (s.eohCheckPtr < 0 ∨ ((s.buf ++ b).length : Int) < s.eohCheckPtr))
    (htok : tokIn crlfcrlf ((s.buf ++ b).drop s.eohCheckPtr.toNat) = true)
    (happ : ap (s.buf ++ b) = Except.ok req)
    (huw : (uw req).2.isSome = true) :
    htWrite (some ap) uw s b =
      some ({ s with buf := s.buf ++ b }, b.length, (uw req).2, req.take (uw req).1) := by
  simp only [htWrite, h, Bool.false_eq_true, if_false]
  rw [if_neg hptr]
  simp only [htok, not_true_eq_false, if_false, happ, huw, if_true]

/-- Claim C1: the spec says the transform Write searches from max(0, scan_cursor - 3)
and clamps the cursor to at least 0, so the search never faults. The code of
conn.go instead advances the cursor by len(b) - 3 with no clamp and slices
buf[eohCheckPtr:] directly: the two one-byte writes of the regression
test TestHTTPTransformConnShortWrite leave the cursor at -2 after the first write
and the second write faults slicing the buffer at a negative index. -/
theorem C1_short_write_scan_cursor_faults :
    htWrite (some fun bs => Except.ok bs) perfectUw htInit [104] =
      some (⟨false, [104], -2⟩, 1, none, []) ∧
    htWrite (some fun bs => Except.ok bs) perfectUw ⟨false, [104], -2⟩ [105] = none := by
  constructor <;> decide

set_option maxRecDepth 8000 in
/-- Claim C3, counterexample to the unrestricted claim: tokens not shorter than
the 1024-byte read buffer break the promised behaviour. With a 1025-byte token
and a source that ends before the token, the carry step
`copy(buf[:len(token)], ...)` slices past the buffer and the run faults instead
of returning the error wrapping end-of-stream. With a 1024-byte token and a full
first chunk, the carry keeps the whole window, the buffer has no space left, and
every further `src.Read(buf[wptr:])` is a zero-length read: the loop never
terminates. Both abnormal executions are the `none` of the model. -/
theorem C3_long_token_faults :
    readAtLeastUntil perfectDst (List.replicate 1025 97) [[98]] = none ∧
    readAtLeastUntil perfectDst (List.replicate 1024 98)
      [List.replicate 1024 97, [99]] = none := by
  constructor <;> decide

/-- Claim C3 (amended: the token is non-empty and shorter than the 1-KiB chunk
buffer): reads are chunked, trailing bytes are carried so a token straddling chunk
boundaries is still found, the call returns as soon as the token appears in the
written prefix with total bytes written equal to the sum of the chunk lengths read
(bytes past the token in the final chunk included), end of source before the token
is the EOF-wrapping error, a short write without an error is itself an error, and
the concrete three-chunk waldo scenario writes 86 bytes. -/
theorem C3_readAtLeastUntil_amended (token : List Nat) (cs : List (List Nat))
    (ht0 : 0 < token.length) (ht : token.length ≤ 1023) :
    (SubSeg token cs.flatten →
      ∃ consumed rest',
        readAtLeastUntil perfectDst token cs =
          some ⟨consumed.length, none, consumed, rest'⟩ ∧
        consumed ++ rest'.flatten = cs.flatten ∧
        SubSeg token consumed ∧
        ∃ pre piece, consumed = pre ++ piece ∧ piece ≠ [] ∧ ¬ SubSeg token pre) ∧
    (¬ SubSeg token cs.flatten →
      readAtLeastUntil perfectDst token cs =
        some ⟨sumLens cs, some eofNotFoundMsg, cs.flatten, []⟩) ∧
    (∀ dstW c rest, c.isEmpty = false → c.length ≤ 1024 →
      (dstW c).2 = none → (dstW c).1 ≠ c.length →
      readAtLeastUntil dstW token (c :: rest) =
        some ⟨(dstW c).1, some shortWriteMsg, c.take (dstW c).1, rest⟩) ∧
    readAtLeastUntil perfectDst [119, 97, 108, 100, 111]
        [[72, 101, 39, 115, 32, 103, 111, 110, 110, 97, 32, 98, 101, 32, 111, 117, 116,
          32, 105, 110, 32, 116, 104, 101, 32, 102, 114, 105, 99, 107, 105, 110, 32,
          103, 114, 97, 112, 101, 115, 32, 105, 116, 39, 115, 32, 104, 101, 46, 46, 32,
          45, 95, 45],
        [71, 82, 65, 80, 69, 46, 46, 71, 82, 65, 80, 69, 46, 46, 71, 82, 65, 119, 97, 108],
        [100, 111, 80, 69, 46, 46, 71, 82, 65, 80, 69, 46, 46]] =
      some ⟨86, none,
        [72, 101, 39, 115, 32, 103, 111, 110, 110, 97, 32, 98, 101, 32, 111, 117, 116,
          32, 105, 110, 32, 116, 104, 101, 32, 102, 114, 105, 99, 107, 105, 110, 32,
          103, 114, 97, 112, 101, 115, 32, 105, 116, 39, 115, 32, 104, 101, 46, 46, 32,
          45, 95, 45, 71, 82, 65, 80, 69, 46, 46, 71, 82, 65, 80, 69, 46, 46, 71, 82,
          65, 119, 97, 108, 100, 111, 80, 69, 46, 46, 71, 82, 65, 80, 69, 46, 46], []⟩ := by
  refine ⟨readAtLeastUntil_found token cs ht0 ht, readAtLeastUntil_eof token cs ht, ?_, ?_⟩
  · intro dstW c rest h1 h2 h3 h4
    exact readAtLeastUntil_shortWrite dstW token c rest h1 h2 h3 h4
  · decide

/-- Witness for claim C3 at a concrete split token: a 2-byte token straddling the
two chunks is found, everything read is written, and the return is immediate. -/
theorem C3_readAtLeastUntil_amended_witness :
    (0 < ([1, 2] : List Nat).length ∧ ([1, 2] : List Nat).length ≤ 1023 ∧
      SubSeg [1, 2] ([[0, 1], [2, 3]] : List (List Nat)).flatten) ∧
    (∃ consumed rest',
      readAtLeastUntil perfectDst [1, 2] [[0, 1], [2, 3]] =
        some ⟨consumed.length, none, consumed, rest'⟩ ∧
      consumed ++ rest'.flatten = ([[0, 1], [2, 3]] : List (List Nat)).flatten ∧
      SubSeg [1, 2] consumed ∧
      ∃ pre piece, consumed = pre ++ piece ∧ piece ≠ [] ∧ ¬ SubSeg [1, 2] pre) :=
  ⟨⟨by decide, by decide, ⟨[0], [3], rfl⟩⟩,
    (C3_readAtLeastUntil_amended [1, 2] [[0, 1], [2, 3]] (by decide) (by decide)).1
      ⟨[0], [3], rfl⟩⟩

/-- Claim C4: Write on the transform connection reports n = len(b) whenever it
returns without error -- while buffering and after a successful transform -- and
never reports fewer than len(b) bytes without also reporting an error, provided
the underlying connection honours the io.Writer short-write contract; on a
strategy Apply failure it returns (len(b), err) with nothing handed to the
underlying connection and the buffer kept, so nothing is retried. -/
theorem C4_transform_write_reports
    (applyS : Option (List Nat → Except String (List Nat)))
    (uw : List Nat → Nat × Option String) (s : HTConn) (b : List Nat)
    (res : HTConn × Nat × Option String × List Nat)
    (huw1 : ∀ bs, (uw bs).1 ≤ bs.length)
    (huw2 : ∀ bs, (uw bs).1 < bs.length → (uw bs).2.isSome = true)
    (h : htWrite applyS uw s b = some res) :
    (res.2.2.1 = none → res.2.1 = b.length) ∧
    (res.2.1 < b.length → res.2.2.1.isSome = true) ∧
    (∀ ap e, applyS = some ap →
      (s.transformedFirst || b.isEmpty) = false →
      ¬ (s.eohCheckPtr < 0 ∨ ((s.buf ++ b).length : Int) < s.eohCheckPtr) →
      tokIn crlfcrlf ((s.buf ++ b).drop s.eohCheckPtr.toNat) = true →
      ap (s.buf ++ b) = Except.error e →
      res = ({ s with buf := s.buf ++ b }, b.length, some e, [])) := by
  cases applyS with
  | none =>
    rw [htWrite_noStrategy] at h
    obtain rfl := Option.some.inj h
    refine ⟨?_, fun hlt => huw2 b hlt, ?_⟩
    · intro he
      have he' : (uw b).2 = none := he
      show (uw b).1 = b.length
      have h1 := huw1 b
      by_cases hlt : (uw b).1 < b.length
      · have h2 := huw2 b hlt
        rw [he'] at h2
        simp at h2
      · omega
    · intro ap e hap
      cases hap
  | some ap =>
    by_cases hp : (s.transformedFirst || b.isEmpty) = true
    · rw [htWrite_pass ap uw s b hp] at h
      obtain rfl := Option.some.inj h
      refine ⟨?_, fun hlt => huw2 b hlt, ?_⟩
      · intro he
        have he' : (uw b).2 = none := he
        show (uw b).1 = b.length
        have h1 := huw1 b
        by_cases hlt : (uw b).1 < b.length
        · have h2 := huw2 b hlt
          rw [he'] at h2
          simp at h2
        · omega
      · intro ap' e hap' hpf
        rw [hp] at hpf
        cases hpf
    · have hpf : (s.transformedFirst || b.isEmpty) = false := Bool.eq_false_iff.mpr hp
      by_cases hptr : s.eohCheckPtr < 0 ∨ ((s.buf ++ b).length : Int) < s.eohCheckPtr
      · rw [htWrite_panic ap uw s b hpf hptr] at h
        cases h
      · by_cases htok : tokIn crlfcrlf ((s.buf ++ b).drop s.eohCheckPtr.toNat) = true
        · cases happ : ap (s.buf ++ b) with
          | error e0 =>
            rw [htWrite_applyError ap uw s b e0 hpf hptr htok happ] at h
            obtain rfl := Option.some.inj h
            refine ⟨?_, ?_, ?_⟩
            · intro he
              have he' : (some e0 : Option String) = none := he
              simp at he'
            · intro hlt
              have hlt' : b.length < b.length := hlt
              omega
            · intro ap' e' hap' _ _ _ happ'
              obtain rfl := Option.some.inj hap'
              rw [happ] at happ'
              injection happ' with he0
              subst he0
              rfl
          | ok req =>
            by_cases hu2 : (uw req).2 = none
            · rw [htWrite_applyOk ap uw s b req hpf hptr htok happ hu2] at h
              obtain rfl := Option.some.inj h
              refine ⟨fun _ => rfl, ?_, ?_⟩
              · intro hlt
                have hlt' : b.length < b.length := hlt
                omega
              · intro ap' e' hap' _ _ _ happ'
                obtain rfl := Option.some.inj hap'
                rw [happ] at happ'
                cases happ'
            · have hu2' : (uw req).2.isSome = true :=
                Option.isSome_iff_ne_none.mpr hu2
              rw [htWrite_uwError ap uw s b req hpf hptr htok happ hu2'] at h
              obtain rfl := Option.some.inj h
              refine ⟨?_, fun _ => hu2', ?_⟩
              · intro he
                have he' : (uw req).2 = none := he
                exact absurd he' hu2
              · intro ap' e' hap' _ _ _ happ'
                obtain rfl := Option.some.inj hap'
                rw [happ] at happ'
                cases happ'
        · have htokf : tokIn crlfcrlf ((s.buf ++ b).drop s.eohCheckPtr.toNat) = false :=
            Bool.eq_false_iff.mpr htok
          rw [htWrite_buffering ap uw s b hpf hptr htokf] at h
          obtain rfl := Option.some.inj h
          refine ⟨fun _ => rfl, ?_, ?_⟩
          · intro hlt
            have hlt' : b.length < b.length := hlt
            omega
          · intro ap' e' hap' _ _ htok' _
            rw [htok'] at htokf
            cases htokf

/-- Witness for claim C4: a single write containing the full header terminator is
transformed and reported in full. -/
theorem C4_transform_write_reports_witness :
    ((∀ bs, (perfectUw bs).1 ≤ bs.length) ∧
     (∀ bs, (perfectUw bs).1 < bs.length → (perfectUw bs).2.isSome = true) ∧
     htWrite (some fun bs => Except.ok bs) perfectUw htInit [13, 10, 13, 10] =
       some (⟨true, [], 0⟩, 4, none, [13, 10, 13, 10])) ∧
    ((((⟨true, [], 0⟩, 4, none, [13, 10, 13, 10]) :
        HTConn × Nat × Option String × List Nat)).2.2.1 = none →
      (((⟨true, [], 0⟩, 4, none, [13, 10, 13, 10]) :
        HTConn × Nat × Option String × List Nat)).2.1 = ([13, 10, 13, 10] : List Nat).length) := by
  have hw1 : ∀ bs, (perfectUw bs).1 ≤ bs.length := fun bs => Nat.le_refl _
  have hw2 : ∀ bs, (perfectUw bs).1 < bs.length → (perfectUw bs).2.isSome = true :=
    fun bs h => absurd h (Nat.lt_irrefl _)
  have hrun : htWrite (some fun bs => Except.ok bs) perfectUw htInit [13, 10, 13, 10] =
      some (⟨true, [], 0⟩, 4, none, [13, 10, 13, 10]) := by decide
  exact ⟨⟨hw1, hw2, hrun⟩,
    (C4_transform_write_reports (some fun bs => Except.ok bs) perfectUw htInit
      [13, 10, 13, 10] (⟨true, [], 0⟩, 4, none, [13, 10, 13, 10]) hw1 hw2 hrun).1⟩

/-- Claim C2: on a server flow the bytes delivered by Read begin with
Normalize(W), where W is exactly the wire bytes up to and including the first
CR LF CR LF; the bytes read past the terminator in the final chunk follow the
normalized request and precede the remaining wire bytes in read order; every
read returns at most len(b) bytes and the remainder is retained for later
calls. Normalize is constrained only by its interface: it succeeds on
terminator-ended input and passes bytes after the terminator through. -/
theorem C2_normalization_read_stream (N : List Nat → Except String (List Nat))
    (cs : List (List Nat)) (cap0 : Nat) (caps : List Nat)
    (ht : SubSeg crlfcrlf cs.flatten)
    (hNok : ∀ w, SufSeg crlfcrlf w → ∃ r, N w = Except.ok r)
    (hHN : ∀ w e r, SufSeg crlfcrlf w → N w = Except.ok r →
      N (w ++ e) = Except.ok (r ++ e)) :
    ∃ (W E NW : List Nat) (rest' ps : List (List Nat)) (sF : NormState),
      cs.flatten = (W ++ E) ++ rest'.flatten ∧
      SufSeg crlfcrlf W ∧
      ¬ SubSeg crlfcrlf (W.take (W.length - 1)) ∧
      N W = Except.ok NW ∧
      normReadAll N ⟨false, none, cs⟩ (cap0 :: caps) =
        some ((NW ++ E).take cap0 :: ps, sF) ∧
      ((NW ++ E).take cap0).length ≤ cap0 ∧
      PrefSeg ((NW ++ E).take cap0 ++ ps.flatten) ((NW ++ E) ++ rest'.flatten) ∧
      List.Forall₂ (fun p c => p.length ≤ c) ps caps := by
  obtain ⟨W, E, NW, rest', hsplit, hsuf, hfirst, hNW, hread⟩ :=
    normRead_first N cs cap0 ht hNok hHN
  obtain ⟨ps, sF, hall, hpre, hlen⟩ :=
    normReadAll_drain N caps ((NW ++ E).drop cap0) rest'
  refine ⟨W, E, NW, rest', ps, sF, hsplit, hsuf, hfirst, hNW, ?_, ?_, ?_, hlen⟩
  · simp only [normReadAll, hread]
    rw [hall]
  · rw [List.length_take]
    omega
  · obtain ⟨v, hv⟩ := hpre
    refine ⟨v, ?_⟩
    calc (NW ++ E) ++ rest'.flatten
        = (NW ++ E).take cap0 ++ ((NW ++ E).drop cap0 ++ rest'.flatten) := by
          rw [← List.append_assoc, List.take_append_drop]
      _ = (NW ++ E).take cap0 ++ (ps.flatten ++ v) := by rw [hv]
      _ = ((NW ++ E).take cap0 ++ ps.flatten) ++ v := by rw [List.append_assoc]

/-- Witness for claim C2: the terminator split across two wire chunks, identity
normalization, one read with a 100-byte buffer. -/
theorem C2_normalization_read_stream_witness :
    SubSeg crlfcrlf ([[13, 10], [13, 10, 7, 8]] : List (List Nat)).flatten ∧
    (∃ (W E NW : List Nat) (rest' ps : List (List Nat)) (sF : NormState),
      ([[13, 10], [13, 10, 7, 8]] : List (List Nat)).flatten = (W ++ E) ++ rest'.flatten ∧
      SufSeg crlfcrlf W ∧
      ¬ SubSeg crlfcrlf (W.take (W.length - 1)) ∧
      Except.ok W = (Except.ok NW : Except String (List Nat)) ∧
      normReadAll (fun bs => Except.ok bs) ⟨false, none, [[13, 10], [13, 10, 7, 8]]⟩
          [100] = some ((NW ++ E).take 100 :: ps, sF) ∧
      ((NW ++ E).take 100).length ≤ 100 ∧
      PrefSeg ((NW ++ E).take 100 ++ ps.flatten) ((NW ++ E) ++ rest'.flatten) ∧
      List.Forall₂ (fun p c => p.length ≤ c) ps []) := by
  have ht : SubSeg crlfcrlf ([[13, 10], [13, 10, 7, 8]] : List (List Nat)).flatten :=
    ⟨[], [7, 8], by decide⟩
  refine ⟨ht, ?_⟩
  exact C2_normalization_read_stream (fun bs => Except.ok bs) [[13, 10], [13, 10, 7, 8]]
    100 [] ht (fun w _ => ⟨w, rfl⟩)
    (fun w e r _ h => by
      have hw : w = r := by injection h
      rw [hw])

/-- Claim C9: when the first Read of the normalization connection fails -- the
wire ends before the terminator, or Normalize rejects the bytes -- it returns
(0, err) delivering nothing, the one-shot flag stays unset and the bytes already
consumed from the wire stay in the internal buffer; a later Read appends the
further wire bytes to that same buffer and attempts normalization again. -/
theorem C9_first_read_failure_recovery (N : List Nat → Except String (List Nat)) :
    (∀ s cap r e, s.normalizedFirst = false →
      readAtLeastUntil perfectDst crlfcrlf s.chunks = some r → r.rerr = some e →
      normRead N s cap =
        some (⟨false, some (s.buf.getD [] ++ r.out), r.remaining⟩, 0, some e, [])) ∧
    (∀ s cap r e, s.normalizedFirst = false →
      readAtLeastUntil perfectDst crlfcrlf s.chunks = some r → r.rerr = none →
      N ((s.buf.getD [] ++ r.out).take r.written) = Except.error e →
      normRead N s cap =
        some (⟨false, some (s.buf.getD [] ++ r.out), r.remaining⟩, 0, some e, [])) ∧
    (∀ B cs cap r norm,
      readAtLeastUntil perfectDst crlfcrlf cs = some r → r.rerr = none →
      N ((B ++ r.out).take r.written) = Except.ok norm →
      normRead N ⟨false, some B, cs⟩ cap =
        some (⟨true, some (norm.drop cap), r.remaining⟩, (norm.take cap).length, none,
          norm.take cap)) :=
  ⟨fun s cap r e h1 h2 h3 => normRead_raluError N s cap r e h1 h2 h3,
   fun s cap r e h1 h2 h3 h4 => normRead_normError N s cap r e h1 h2 h3 h4,
   fun B cs cap r norm h1 h2 h3 => normRead_retry N B cs cap r norm h1 h2 h3⟩

/-- Witness for claim C9: a wire that ends before the terminator makes the first
read fail with the EOF-wrapping error while the consumed byte stays buffered. -/
theorem C9_first_read_failure_recovery_witness :
    ((⟨false, none, [[72]]⟩ : NormState).normalizedFirst = false ∧
     readAtLeastUntil perfectDst crlfcrlf (⟨false, none, [[72]]⟩ : NormState).chunks =
       some ⟨1, some eofNotFoundMsg, [72], []⟩ ∧
     (⟨1, some eofNotFoundMsg, [72], []⟩ : RaluResult).rerr = some eofNotFoundMsg) ∧
    normRead (fun _ => Except.error "bad") (⟨false, none, [[72]]⟩ : NormState) 64 =
      some (⟨false, some [72], []⟩, 0, some eofNotFoundMsg, []) := by
  have h2 : readAtLeastUntil perfectDst crlfcrlf
      (⟨false, none, [[72]]⟩ : NormState).chunks = some ⟨1, some eofNotFoundMsg, [72], []⟩ := by
    decide
  exact ⟨⟨rfl, h2, rfl⟩,
    (C9_first_read_failure_recovery (fun _ => Except.error "bad")).1
      ⟨false, none, [[72]]⟩ 64 ⟨1, some eofNotFoundMsg, [72], []⟩ eofNotFoundMsg rfl h2 rfl⟩

theorem ksSeg_zero (E : List Nat → List Nat) (iv : List Nat) (n : Nat) :
    ksSeg E iv 0 n = ofbKeystream E iv n := by
  simp [ksSeg]

/-- Claim C5: for any 16/24/32 byte key, a cipher adapter pair over the same key
is a round trip: the bytes read back through the decrypt keystream of what was
written through the encrypt keystream are the original plaintext, and the
ciphertext has exactly the length of the plaintext. `E` is the keyed AES block
encryption (an arbitrary 16-byte block function). -/
theorem C5_cipher_roundtrip (E : List Nat → List Nat) (connId : Nat) (key x : List Nat)
    (hkey : aesKeyLenValid key = true) (hE : ∀ b, (E b).length = 16) :
    ∃ ec, encryptConn connId key = some ec ∧
      (encWrite E ec x).2.length = x.length ∧
      (encRead E ec (encWrite E ec x).2).2 = x := by
  have hks : ∀ n, (ksSeg E zeroIV 0 n).length = n := by
    intro n
    rw [ksSeg_zero, ofbKeystream_length E zeroIV n hE]
  have hlen : (xorBytes (ksSeg E zeroIV 0 x.length) x).length = x.length := by
    rw [xorBytes_length, hks]
    exact Nat.min_self _
  refine ⟨⟨connId, zeroIV, zeroIV, 0, 0⟩, by simp [encryptConn, hkey], hlen, ?_⟩
  show xorBytes
      (ksSeg E zeroIV 0 (xorBytes (ksSeg E zeroIV 0 x.length) x).length)
      (xorBytes (ksSeg E zeroIV 0 x.length) x) = x
  rw [hlen]
  exact xorBytes_cancel _ _ (by rw [hks])

/-- Witness for claim C5 with a constant block function and a 16-byte key. -/
theorem C5_cipher_roundtrip_witness :
    (aesKeyLenValid (List.replicate 16 48) = true ∧
     ∀ b : List Nat, ((fun _ : List Nat => List.replicate 16 1) b).length = 16) ∧
    (∃ ec, encryptConn 0 (List.replicate 16 48) = some ec ∧
      (encWrite (fun _ : List Nat => List.replicate 16 1) ec [7, 8, 9]).2.length =
        ([7, 8, 9] : List Nat).length ∧
      (encRead (fun _ : List Nat => List.replicate 16 1) ec
        (encWrite (fun _ : List Nat => List.replicate 16 1) ec [7, 8, 9]).2).2 = [7, 8, 9]) := by
  have hE : ∀ b : List Nat, ((fun _ : List Nat => List.replicate 16 1) b).length = 16 :=
    fun _ => rfl
  exact ⟨⟨by decide, hE⟩,
    C5_cipher_roundtrip (fun _ : List Nat => List.replicate 16 1) 0 (List.replicate 16 48)
      [7, 8, 9] (by decide) hE⟩

/-- Claim C10: both keystream directions are seeded with the fixed all-zero IV,
so the keystream is a function of the key alone: two adapters built over
different connections with the same key produce byte-identical ciphertext for
equal plaintexts, namely the XOR of the plaintext against the zero-IV OFB
keystream; no per-connection randomness enters the construction. -/
theorem C10_keystream_reuse (E : List Nat → List Nat) (key x : List Nat)
    (cid1 cid2 : Nat) (hkey : aesKeyLenValid key = true) :
    ∃ ec1 ec2,
      encryptConn cid1 key = some ec1 ∧ encryptConn cid2 key = some ec2 ∧
      ec1.riv = zeroIV ∧ ec1.wiv = zeroIV ∧ ec2.riv = zeroIV ∧ ec2.wiv = zeroIV ∧
      (encWrite E ec1 x).2 = (encWrite E ec2 x).2 ∧
      (encWrite E ec1 x).2 = xorBytes (ofbKeystream E zeroIV x.length) x := by
  refine ⟨⟨cid1, zeroIV, zeroIV, 0, 0⟩, ⟨cid2, zeroIV, zeroIV, 0, 0⟩,
    by simp [encryptConn, hkey], by simp [encryptConn, hkey],
    rfl, rfl, rfl, rfl, rfl, ?_⟩
  show xorBytes (ksSeg E zeroIV 0 x.length) x = xorBytes (ofbKeystream E zeroIV x.length) x
  rw [ksSeg_zero]

/-- Witness for claim C10 with a constant block function and a 16-byte key. -/
theorem C10_keystream_reuse_witness :
    aesKeyLenValid (List.replicate 16 48) = true ∧
    (∃ ec1 ec2,
      encryptConn 5 (List.replicate 16 48) = some ec1 ∧
      encryptConn 6 (List.replicate 16 48) = some ec2 ∧
      ec1.riv = zeroIV ∧ ec1.wiv = zeroIV ∧ ec2.riv = zeroIV ∧ ec2.wiv = zeroIV ∧
      (encWrite (fun _ : List Nat => List.replicate 16 1) ec1 [3, 4]).2 =
        (encWrite (fun _ : List Nat => List.replicate 16 1) ec2 [3, 4]).2 ∧
      (encWrite (fun _ : List Nat => List.replicate 16 1) ec1 [3, 4]).2 =
        xorBytes (ofbKeystream (fun _ : List Nat => List.replicate 16 1) zeroIV
          ([3, 4] : List Nat).length) [3, 4]) :=
  ⟨by decide,
    C10_keystream_reuse (fun _ : List Nat => List.replicate 16 1) (List.replicate 16 48)
      [3, 4] 5 6 (by decide)⟩

/-- Claim C6: the listener is built with a ready queue of capacity 100, an error
side channel of capacity 20 whose sends are non-blocking and dropped when the
channel is full, and a handshake HTTP server with 10-second read and write
timeouts. -/
theorem C6_listener_sizing :
    wrapListenerConfig.connectionsCap = 100 ∧
    wrapListenerConfig.wsConnErrCap = 20 ∧
    wrapListenerConfig.srvReadTimeout = 10 * timeSecond ∧
    wrapListenerConfig.srvWriteTimeout = 10 * timeSecond ∧
    (∀ e q, q.length < 20 → sendError e q 20 = q ++ [e]) ∧
    (∀ e q, ¬ q.length < 20 → sendError e q 20 = q) := by
  refine ⟨rfl, rfl, rfl, rfl, ?_, ?_⟩ <;> intro e q h <;> simp [sendError, h]

/-- Witness for claim C6: a send on an empty channel is enqueued, a send on a
full channel is dropped. -/
theorem C6_listener_sizing_witness :
    (([] : List String).length < 20 ∧ ¬ (List.replicate 20 "e").length < 20) ∧
    (sendError "x" [] 20 = [] ++ ["x"] ∧
     sendError "y" (List.replicate 20 "e") 20 = List.replicate 20 "e") :=
  ⟨⟨by decide, by decide⟩,
   ⟨C6_listener_sizing.2.2.2.2.1 "x" [] (by decide),
    C6_listener_sizing.2.2.2.2.2 "y" (List.replicate 20 "e") (by decide)⟩⟩

/-- Claim C7: when the websocket handshake succeeded but the request context ends
before the flow is delivered to the ready queue, the handler closes the flow and
reports the context error through sendError on the side channel; whenever the
channel has room the error is actually enqueued. -/
theorem C7_ctx_done_closes_and_reports (c : Nat) (e : String) (errQ : List String) :
    handleFunc (.ok c) (.ctxDone e) errQ = ⟨none, true, sendError e errQ 20⟩ ∧
    (errQ.length < 20 → e ∈ (handleFunc (.ok c) (.ctxDone e) errQ).errQ) := by
  refine ⟨rfl, ?_⟩
  intro h
  show e ∈ sendError e errQ 20
  simp [sendError, h]

/-- Witness for claim C7: a flow closed on context expiry with an empty side
channel: the stream is closed and the error is enqueued. -/
theorem C7_ctx_done_closes_and_reports_witness :
    (([] : List String).length < 20) ∧
    (handleFunc (.ok 1) (.ctxDone "context deadline") [] =
      ⟨none, true, sendError "context deadline" [] 20⟩ ∧
     "context deadline" ∈ (handleFunc (.ok 1) (.ctxDone "context deadline") []).errQ) :=
  ⟨by decide,
   ⟨(C7_ctx_done_closes_and_reports 1 "context deadline" []).1,
    (C7_ctx_done_closes_and_reports 1 "context deadline" []).2 (by decide)⟩⟩

/-- Claim C8: the completion channel is closed at most once along any trace of
lifecycle events (only the server goroutine closes it); Close called after the
listener has closed returns nil; and once the channel has fired, the connections
channel is nil on every reachable state and Accept returns the captured terminal
server error on every call. -/
theorem C8_close_once_idempotent_accept (evs : List LEvent) (s : LState)
    (r : Option String) :
    fires lInit evs ≤ 1 ∧
    (s.fired = true → lClose r s = (s, none)) ∧
    (s.fired = true → lAccept s = (s, some (Except.error (s.srvErr.getD "")))) ∧
    (∀ s', lRun lInit evs = some s' → s'.fired = true → s'.connections = none) := by
  refine ⟨fires_le_one evs lInit, ?_, ?_, ?_⟩
  · intro hf
    simp [lClose, hf]
  · intro hf
    simp [lAccept, hf]
  · intro s' h hf
    refine lRun_fired_connections evs lInit s' h ?_ hf
    intro h0
    cases h0

/-- Witness for claim C8: the trace where the server exits and Close is then
called; the closed listener reports nil from Close and the terminal error from
Accept. -/
theorem C8_close_once_idempotent_accept_witness :
    ((⟨true, some "gone", none⟩ : LState).fired = true) ∧
    (fires lInit [LEvent.serverExit "gone", LEvent.closeCall none] ≤ 1 ∧
     lClose none ⟨true, some "gone", none⟩ = (⟨true, some "gone", none⟩, none) ∧
     lAccept ⟨true, some "gone", none⟩ =
       (⟨true, some "gone", none⟩, some (Except.error "gone"))) := by
  have T := C8_close_once_idempotent_accept
    [LEvent.serverExit "gone", LEvent.closeCall none] ⟨true, some "gone", none⟩ none
  exact ⟨rfl, T.1, T.2.1 rfl, T.2.2.1 rfl⟩
